import Mathlib

/-!
Verification of the OMR (optical mark recognition) pipeline in
the TCC backend, against its natural-language specification.

The Python module image_processor.py is shallowly embedded here:
points and pixel coordinates become rationals / integers, numpy
reductions (argmin, argmax, median, mean) become explicit list
functions, and the exception-based control flow becomes Except.
-/

set_option maxHeartbeats 1000000

/-- A 2-D point in image pixel coordinates (float32 in the source,
modelled as rationals). -/
structure Pt where
  x : ℚ
  y : ℚ
  deriving DecidableEq, Repr

/-- Embeds numpy argmin over a point functional: returns the element
attaining the minimum of f, resolving ties toward the earliest
element, exactly as np.argmin returns the first minimizing index.
The empty list falls back to the origin (never reached by callers). -/
def firstMinBy (f : Pt → ℚ) : List Pt → Pt
  | [] => ⟨0, 0⟩
  | [p] => p
  | p :: q :: rest =>
    let m := firstMinBy f (q :: rest)
    if f p ≤ f m then p else m

/-- Embeds numpy argmax over a point functional: first element
attaining the maximum, as np.argmax returns the first maximizing
index. -/
def firstMaxBy (f : Pt → ℚ) : List Pt → Pt
  | [] => ⟨0, 0⟩
  | [p] => p
  | p :: q :: rest =>
    let m := firstMaxBy f (q :: rest)
    if f m ≤ f p then p else m

/-- The source's sum functional: pts.sum(axis=1) gives x + y. -/
def ptSum (p : Pt) : ℚ := p.x + p.y

/-- The source's diff functional: np.diff(pts, axis=1) gives y - x
(second column minus first column). -/
def ptDiff (p : Pt) : ℚ := p.y - p.x

/-- The rect array returned by order_points: index 0 = top-left,
1 = top-right, 2 = bottom-right, 3 = bottom-left. -/
structure OrderedQuad where
  tl : Pt
  tr : Pt
  br : Pt
  bl : Pt
  deriving DecidableEq, Repr

/-- Embedding of order_points (image_processor.py lines 16-25):
rect[0] = pts[argmin(s)], rect[2] = pts[argmax(s)] with s = x + y;
rect[1] = pts[argmin(diff)], rect[3] = pts[argmax(diff)] with
diff = y - x. -/
def order_points (pts : List Pt) : OrderedQuad :=
  { tl := firstMinBy ptSum pts
    br := firstMaxBy ptSum pts
    tr := firstMinBy ptDiff pts
    bl := firstMaxBy ptDiff pts }

/-- The property of being a member attaining the minimum of f. -/
def AttainsMin (f : Pt → ℚ) (l : List Pt) (p : Pt) : Prop :=
  p ∈ l ∧ ∀ q ∈ l, f p ≤ f q

/-- The property of being a member attaining the maximum of f. -/
def AttainsMax (f : Pt → ℚ) (l : List Pt) (p : Pt) : Prop :=
  p ∈ l ∧ ∀ q ∈ l, f q ≤ f p

/-- At most one member of l attains the minimum of f. -/
def UniqueMinBy (f : Pt → ℚ) (l : List Pt) : Prop :=
  ∀ p q : Pt, AttainsMin f l p → AttainsMin f l q → p = q

/-- At most one member of l attains the maximum of f. -/
def UniqueMaxBy (f : Pt → ℚ) (l : List Pt) : Prop :=
  ∀ p q : Pt, AttainsMax f l p → AttainsMax f l q → p = q

/-- The z-component of the cross product of the edges o->a and
o->b; positive values mean a counter-clockwise turn. Used only to
certify that a counterexample's points form a convex quadrilateral. -/
def crossZ (o a b : Pt) : ℚ :=
  (a.x - o.x) * (b.y - o.y) - (a.y - o.y) * (b.x - o.x)

/-- Squared Euclidean distance between two points. -/
def sqDist (p q : Pt) : ℚ :=
  (p.x - q.x) ^ 2 + (p.y - q.y) ^ 2

/-- Floor of the Euclidean length given its square: models
int(np.linalg.norm(v)), i.e. truncation of the (nonnegative) norm,
as the integer square root of the floor of the squared length. -/
def isqrtQ (q : ℚ) : ℕ :=
  Nat.sqrt (Int.toNat ⌊q⌋)

/-- Nearest integer to the square root of a natural number, i.e.
round(sqrt n). Since 4n is even it is never an odd perfect square,
so sqrt n is never exactly halfway between two integers and all
rounding modes agree. -/
def roundSqrtNat (n : ℕ) : ℕ :=
  (1 + Nat.sqrt (4 * n)) / 2

/-- Embedding of the size computation of four_point_transform
(image_processor.py lines 27-40): widthA = norm(br - bl),
widthB = norm(tr - tl), maxWidth = max(int(widthA), int(widthB));
heightA = norm(tr - br), heightB = norm(tl - bl),
maxHeight = max(int(heightA), int(heightB)); the warped output
image has exactly (maxWidth, maxHeight) as dimensions. -/
def four_point_transform_size (pts : List Pt) : ℕ × ℕ :=
  let rect := order_points pts
  (max (isqrtQ (sqDist rect.br rect.bl)) (isqrtQ (sqDist rect.tr rect.tl)),
    max (isqrtQ (sqDist rect.tr rect.br)) (isqrtQ (sqDist rect.tl rect.bl)))

/-- Python exception values raised by the processing module. The
repository's exceptions.py defines a structured MarkerDetectionError
class carrying found/expected counts; the constructor is included
here so that statements can distinguish it from the plain generic
Exception that image_processor.py actually raises. -/
inductive PyError where
  | generic (msg : String)
  | markerDetection (found expected : ℕ)
  deriving DecidableEq, Repr

/-- True exactly on the structured marker-detection error kind. -/
def PyError.isMarkerDetection : PyError → Bool
  | .markerDetection _ _ => true
  | _ => false

/-- The message format of the exception raised by detect_markers. -/
def markerErrMsg (found : ℕ) : String :=
  "Erro Crítico: Encontrados apenas " ++ toString found ++ " marcadores."

/-- Embedding of the marker-count control flow of detect_markers
(image_processor.py lines 65-71), abstracted over the number of
valid marker contours that passed the shape filters: fewer than
min_markers = 3 (config.py) raises a plain Exception whose message
embeds the found count; more than max_markers = 4 keeps the 4
largest; otherwise all found markers are kept. -/
def detect_markers_check (found : ℕ) : Except PyError ℕ :=
  if found < 3 then .error (.generic (markerErrMsg found))
  else if found > 4 then .ok 4
  else .ok found

/-- Python truthiness of the optional question-count hint: None and
0 are falsy. -/
def truthy : Option ℕ → Bool
  | none => false
  | some n => n != 0

/-- Embedding of the expected bubble count (detect_bubbles lines
120-124): hint * 5 when a truthy hint is given, otherwise the
configured expected_count = 200 (config.py). -/
def expected_bubbles (numQuestions : Option ℕ) : ℕ :=
  match numQuestions with
  | some (n + 1) => (n + 1) * 5
  | _ => 200

/-- Embedding of the final bubble-count acceptance logic
(detect_bubbles lines 178-187), abstracted over the final candidate
count after reconstruction and trimming: an exact match passes;
otherwise a truthy hint together with a positive multiple of 5
passes; otherwise counts strictly above 90 percent of the expected
count pass (the float comparison count > expected * 0.9 is exact
here: 10 * count > 9 * expected); otherwise a generic Exception is
raised. -/
def bubble_count_check (numQuestions : Option ℕ) (count : ℕ) :
    Except PyError ℕ :=
  let expected := expected_bubbles numQuestions
  if count = expected then .ok count
  else if truthy numQuestions ∧ 0 < count ∧ count % 5 = 0 then .ok count
  else if 10 * count > 9 * expected then .ok count
  else .error (.generic ("Não foi possível isolar as " ++ toString expected ++
    " bolhas. Encontradas: " ++ toString count ++ "."))

/-- Python's int() applied to a (rational-modelled) float:
truncation toward zero. -/
def pyInt (q : ℚ) : ℤ :=
  if 0 ≤ q then ⌊q⌋ else ⌈q⌉

/-- Python's round() on a (rational-modelled) float: nearest
integer, ties to even. -/
def pyRound (q : ℚ) : ℤ :=
  let f := ⌊q⌋
  let r := q - f
  if r < 1 / 2 then f
  else if 1 / 2 < r then f + 1
  else if f % 2 = 0 then f else f + 1

/-- A bounding box (x, y, w, h) as returned by cv2.boundingRect;
bubble candidates are tracked through reconstruction and ordering
by these boxes. -/
structure Box where
  x : ℤ
  y : ℤ
  w : ℤ
  h : ℤ
  deriving DecidableEq, Repr

/-- The left-to-right comparison used when sorting a row by the
box's starting x coordinate. -/
def boxLe (a b : Box) : Prop := a.x ≤ b.x

instance : DecidableRel boxLe := fun a b => inferInstanceAs (Decidable (a.x ≤ b.x))

/-- Embedding of np.median: sort ascending; odd length takes the
middle element, even length averages the two middle elements. -/
def npMedian (l : List ℚ) : ℚ :=
  let sorted := List.insertionSort (· ≤ ·) l
  if l.length = 0 then 0
  else if l.length % 2 = 1 then sorted.getD (l.length / 2) 0
  else (sorted.getD (l.length / 2 - 1) 0 + sorted.getD (l.length / 2) 0) / 2

/-- Start-to-start horizontal gaps of a row: xs[i+1] - xs[i]
(reconstruct_missing_bubbles lines 241-246). -/
def gapsQ (l : List Box) : List ℚ :=
  List.zipWith (fun a b => ((b : ℚ) - (a : ℚ)))
    (l.map fun b => b.x) ((l.map fun b => b.x).tail)

/-- The synthetic candidates inserted between one adjacent pair
(reconstruct_missing_bubbles lines 261-288): when the start-to-start
distance exceeds 1.5x the median step, round(dist/step) - 1
rectangular boxes are created at x = int(curr_x + step * (m+1)),
with the row's median width (truncated) and the left neighbor's y
and height. -/
def synthBoxes (step avgW : ℚ) (curr next : Box) : List Box :=
  let dist : ℚ := (next.x : ℚ) - (curr.x : ℚ)
  if step * (3 / 2) < dist then
    let missing := pyRound (dist / step) - 1
    if 0 < missing then
      (List.range missing.toNat).map fun m : ℕ =>
        ⟨pyInt ((curr.x : ℚ) + step * ((m : ℚ) + 1)), curr.y, pyInt avgW, curr.h⟩
    else []
  else []

/-- The per-row reconstruction loop (lines 257-288): each candidate
is emitted followed by the synthetic boxes filling the gap to its
right neighbor. -/
def fillGaps (step avgW : ℚ) : List Box → List Box
  | [] => []
  | [b] => [b]
  | b1 :: b2 :: rest =>
    b1 :: (synthBoxes step avgW b1 b2 ++ fillGaps step avgW (b2 :: rest))

/-- Embedding of the per-row body of reconstruct_missing_bubbles
(lines 228-290): sort the row left-to-right; rows with fewer than 2
members pass through unchanged; otherwise compute the median width
and the median start-to-start gap and fill every oversized gap with
synthetic boxes. -/
def processRow (row : List Box) : List Box :=
  let sorted := List.insertionSort boxLe row
  if sorted.length < 2 then sorted
  else
    let avgW := npMedian (sorted.map fun b => (b.w : ℚ))
    let gaps := gapsQ sorted
    if gaps = [] then sorted
    else fillGaps (npMedian gaps) avgW sorted

/-- A run of n evenly spaced identical bubbles starting at x0 with
horizontal step s. -/
def evenRun (x0 s y w h : ℤ) (n : ℕ) : List Box :=
  (List.range n).map fun i : ℕ => ⟨x0 + (i : ℤ) * s, y, w, h⟩

/-- Top-to-bottom comparison by the box's starting y coordinate. -/
def boxLeY (a b : Box) : Prop := a.y ≤ b.y

instance : DecidableRel boxLeY := fun a b => inferInstanceAs (Decidable (a.y ≤ b.y))

/-- imutils contours.sort_contours with method left-to-right: a
stable sort of the candidates by bounding-box x. -/
def sort_left_to_right (l : List Box) : List Box :=
  List.insertionSort boxLe l

/-- imutils contours.sort_contours with method top-to-bottom: a
stable sort by bounding-box y. -/
def sort_top_to_bottom (l : List Box) : List Box :=
  List.insertionSort boxLeY l

/-- The iteration indices of the loop for i in range(0, n, chunk_size)
in sort_bubbles_by_columns: the range object is built once with the
initial chunk_size of 75, so the step remains 75 even though
chunk_size is later reassigned to 50 inside the loop body. -/
def colIndices (n : ℕ) : List ℕ :=
  (List.range ((n + 74) / 75)).map (fun i => i * 75)

/-- The chunk traversal of sort_bubbles_by_columns (lines 301-307):
at index i the slice [i : i + cs] is taken; after emitting a chunk,
if i + cs ≥ 150 the chunk size for later iterations becomes 50. -/
def columnChunks (sorted : List Box) : List ℕ → ℕ → List (List Box)
  | [], _ => []
  | i :: rest, cs =>
    ((sorted.drop i).take cs) ::
      columnChunks sorted rest (if 150 ≤ i + cs then 50 else cs)

/-- Embedding of sort_bubbles_by_columns (image_processor.py lines
294-310): sort all candidates left-to-right, then emit chunks
(intended as the 3 physical columns of 75, 75 and 50 bubbles), each
chunk sorted top-to-bottom. -/
def sort_bubbles_by_columns (l : List Box) : List Box :=
  let sorted := sort_left_to_right l
  ((columnChunks sorted (colIndices sorted.length) 75).map
    sort_top_to_bottom).flatten

/-- A 201-candidate input exhibiting the dropped final slice of
sort_bubbles_by_columns. -/
def manyBoxes : List Box :=
  (List.range 201).map (fun i : ℕ => ⟨(i : ℤ), 0, 10, 10⟩)

/-- The alternative letters, alternativas = {0: A, ..., 4: E}
(extract_answers line 318). Groups cut from the ordered sequence
have at most 5 members, so indices above 4 never occur. -/
def alternativas (i : ℕ) : String :=
  match i with
  | 0 => "A"
  | 1 => "B"
  | 2 => "C"
  | 3 => "D"
  | 4 => "E"
  | _ => "?"

/-- The descending comparison of sorted(pontuacoes, reverse=True). -/
def geN (a b : ℕ) : Prop := b ≤ a

instance : DecidableRel geN := fun a b => inferInstanceAs (Decidable (b ≤ a))

instance : IsTotal ℕ geN := ⟨fun a b => (le_total b a)⟩

instance : IsTrans ℕ geN := ⟨fun _ _ _ hab hbc => le_trans hbc hab⟩

instance : IsAntisymm ℕ geN := ⟨fun _ _ h1 h2 => le_antisymm h2 h1⟩

/-- Embedding of the per-question decision of extract_answers
(lines 342-372): sort the 5 fill scores descending; max = first,
second = next (0 when the group has a single bubble, making the
ratio infinite, so the ratio test passes vacuously); marked iff
ratio > 1.15 AND max > 1.1 * mean AND max > 50; if marked the
answer is the letter at the first index attaining the max in the
original score order, else the unmarked sentinel. -/
def decide_answer (pontuacoes : List ℕ) : String :=
  let sorted := List.insertionSort geN pontuacoes
  let max_score := sorted.headD 0
  let second_score := if 1 < sorted.length then sorted.getD 1 0 else 0
  let mean_score : ℚ := (pontuacoes.sum : ℚ) / (pontuacoes.length : ℚ)
  if (second_score = 0 ∨ (max_score : ℚ) / (second_score : ℚ) > 23 / 20) ∧
      (max_score : ℚ) > mean_score * (11 / 10) ∧ max_score > 50 then
    alternativas (List.indexOf max_score pontuacoes)
  else "NÃO MARCADA"

/-- The decision rule exactly as the specification words it, in
integer arithmetic: max and second-highest of the 5 scores, ratio
test 20 * max > 23 * second (i.e. max/second > 1.15, passing when
second = 0), mean test 10 * n * max > 11 * sum (i.e. max > 1.1 *
mean), absolute floor max > 50. -/
def spec_decision (pontuacoes : List ℕ) : String :=
  let maxS := pontuacoes.foldr Nat.max 0
  let secondS := (pontuacoes.erase maxS).foldr Nat.max 0
  if (secondS = 0 ∨ 20 * maxS > 23 * secondS) ∧
      (10 * pontuacoes.length * maxS > 11 * pontuacoes.sum) ∧ maxS > 50 then
    alternativas (List.indexOf maxS pontuacoes)
  else "NÃO MARCADA"

/-- The grouping of the ordered bubbles into consecutive slices of
5 (extract_answers line 327: for i in np.arange(0, len, 5) with
slice [i : i + 5]); the final group may be shorter. -/
def chunk5 : List Box → List (List Box)
  | [] => []
  | [a] => [[a]]
  | [a, b] => [[a, b]]
  | [a, b, c] => [[a, b, c]]
  | [a, b, c, d] => [[a, b, c, d]]
  | a :: b :: c :: d :: e :: rest => [a, b, c, d, e] :: chunk5 rest

/-- Embedding of extract_answers (image_processor.py lines 312-405)
over bubble boxes and an abstract fill-score function (the count of
foreground pixels inside each bubble on the thresholded image,
which is a fixed function of that image): the ordered bubbles are
cut into consecutive groups of 5, each group re-sorted
left-to-right, scored, and decided; the record for group q is keyed
q + 1. -/
def extract_answers (sorted_bubbles : List Box) (score : Box → ℕ) :
    List (ℕ × String) :=
  (chunk5 sorted_bubbles).mapIdx fun q group =>
    (q + 1, decide_answer ((sort_left_to_right group).map score))

/-- Mean bubble height, np.mean over all boxes (line 207). -/
def meanHeight (boxes : List Box) : ℚ :=
  (((boxes.map fun b => b.h).sum : ℤ) : ℚ) / (boxes.length : ℚ)

/-- State of the row-clustering loop of reconstruct_missing_bubbles
(lines 204-223): completed rows, the row under construction, and
the running last_y value (-1 is the initial sentinel). -/
structure ClusterState where
  rows : List (List Box)
  current : List Box
  lastY : ℚ

/-- One iteration of the clustering loop: a box joins the current
row when last_y is the sentinel or its y is within the threshold of
last_y, updating last_y by the source's running formula
(last_y * len + y) / (len + 1) with len taken after the append;
otherwise the current row is closed and a new one starts. -/
def clusterStep (yThreshold : ℚ) (st : ClusterState) (cb : Box) : ClusterState :=
  if st.lastY = -1 ∨ |(cb.y : ℚ) - st.lastY| < yThreshold then
    let newCurrent := st.current ++ [cb]
    let newLast : ℚ :=
      if st.lastY ≠ -1 then
        (st.lastY * (newCurrent.length : ℚ) + (cb.y : ℚ)) /
          ((newCurrent.length : ℚ) + 1)
      else (cb.y : ℚ)
    ⟨st.rows, newCurrent, newLast⟩
  else ⟨st.rows ++ [st.current], [cb], (cb.y : ℚ)⟩

/-- Embedding of reconstruct_missing_bubbles (lines 191-292) over
bounding boxes: sort by y, cluster into rows with a vertical
threshold of half the mean height, then run the per-row gap filling
on each row and concatenate. -/
def reconstruct_missing_bubbles (cnts : List Box) : List Box :=
  if cnts = [] then []
  else
    let sortedByY := List.insertionSort boxLeY cnts
    let yThreshold := meanHeight cnts * (1 / 2)
    let final := sortedByY.foldl (clusterStep yThreshold) ⟨[], [], -1⟩
    let rows := final.rows ++ (if final.current = [] then [] else [final.current])
    (rows.map processRow).flatten

/-- The largest-by-area trimming of detect_bubbles (line 175):
sorted(question_cnts, key=cv2.contourArea, reverse=True)[:expected].
Candidates are abstracted by their boxes, so the contour area is an
abstract parameter (it equals w * h for the synthetic rectangles). -/
def take_largest (area : Box → ℤ) (k : ℕ) (l : List Box) : List Box :=
  (List.insertionSort (fun a b => area b ≤ area a) l).take k

/-- Embedding of detect_bubbles (lines 114-189) from the filtered
candidate set onward: grid reconstruction (whose internal errors
the source swallows; the embedding is total), trimming to the
expected count when enough candidates exist, then the final count
check. -/
def detect_bubbles (numQuestions : Option ℕ) (area : Box → ℤ)
    (candidates : List Box) : Except PyError (List Box) :=
  let expected := expected_bubbles numQuestions
  let recon := reconstruct_missing_bubbles candidates
  let trimmed := if expected ≤ recon.length then take_largest area expected recon
    else recon
  match bubble_count_check numQuestions trimmed.length with
  | .ok _ => .ok trimmed
  | .error e => .error e

/-- The str(e) message of a raised error. -/
def PyError.message : PyError → String
  | .generic m => m
  | .markerDetection f e =>
    "Encontrados " ++ toString f ++ " marcadores, esperado pelo menos 3 de " ++
      toString e

/-- The abstract, vision-independent content of one input image:
the number of valid marker contours, the bubble candidates passing
the size and aspect filters, their contour areas, and the fill
score of each bubble on the thresholded image. -/
structure PipelineInput where
  markerCount : ℕ
  candidates : List Box
  area : Box → ℤ
  score : Box → ℕ

/-- The result dictionary of process_gabarito_image: either
success=True with the answers map and total_questions, or
success=False with only an error message. -/
inductive ProcResult where
  | ok (answers : List (ℕ × String)) (total : ℕ)
  | fail (error : String)
  deriving DecidableEq

/-- Embedding of process_gabarito_image (lines 407-440): the whole
pipeline runs inside try/except Exception; any raised error is
converted to a failure dictionary carrying str(e), and the success
dictionary carries the answers and total_questions = len(answers). -/
def process_gabarito_image (input : PipelineInput)
    (numQuestions : Option ℕ) : ProcResult :=
  match (do
    let _ ← detect_markers_check input.markerCount
    let bubbles ← detect_bubbles numQuestions input.area input.candidates
    pure (extract_answers (sort_bubbles_by_columns bubbles) input.score) :
      Except PyError (List (ℕ × String))) with
  | .ok answers => .ok answers answers.length
  | .error e => .fail e.message

theorem firstMinBy_mem (f : Pt → ℚ) : ∀ (l : List Pt), l ≠ [] → firstMinBy f l ∈ l
  | [], h => absurd rfl h
  | [p], _ => by simp [firstMinBy]
  | p :: q :: rest, _ => by
    have ih := firstMinBy_mem f (q :: rest) (by simp)
    simp only [firstMinBy]
    split
    · exact List.mem_cons_self _ _
    · exact List.mem_cons_of_mem _ ih

theorem firstMinBy_le (f : Pt → ℚ) :
    ∀ (l : List Pt), ∀ p ∈ l, f (firstMinBy f l) ≤ f p
  | [], p, hp => by simp at hp
  | [q], p, hp => by
    simp at hp
    simp [firstMinBy, hp]
  | q :: q' :: rest, p, hp => by
    have ih := firstMinBy_le f (q' :: rest)
    simp only [firstMinBy]
    rcases List.mem_cons.mp hp with h | h
    · subst h
      split
      · exact le_refl _
      · next hlt => exact le_of_lt (lt_of_not_le hlt)
    · have hle := ih p h
      split
      · next hq => exact le_trans hq hle
      · exact hle

theorem firstMaxBy_mem (f : Pt → ℚ) : ∀ (l : List Pt), l ≠ [] → firstMaxBy f l ∈ l
  | [], h => absurd rfl h
  | [p], _ => by simp [firstMaxBy]
  | p :: q :: rest, _ => by
    have ih := firstMaxBy_mem f (q :: rest) (by simp)
    simp only [firstMaxBy]
    split
    · exact List.mem_cons_self _ _
    · exact List.mem_cons_of_mem _ ih

theorem le_firstMaxBy (f : Pt → ℚ) :
    ∀ (l : List Pt), ∀ p ∈ l, f p ≤ f (firstMaxBy f l)
  | [], p, hp => by simp at hp
  | [q], p, hp => by
    simp at hp
    simp [firstMaxBy, hp]
  | q :: q' :: rest, p, hp => by
    have ih := le_firstMaxBy f (q' :: rest)
    simp only [firstMaxBy]
    rcases List.mem_cons.mp hp with h | h
    · subst h
      split
      · exact le_refl _
      · next hlt => exact le_of_lt (lt_of_not_le hlt)
    · have hle := ih p h
      split
      · next hq => exact le_trans hle hq
      · exact hle

/-- C5: the corner-ordering operation returns TL attaining the
minimum of x+y and BR attaining the maximum of x+y (as the claim
states), but TR attains the minimum of y-x, i.e. the MAXIMUM of
x-y, and BL attains the maximum of y-x, i.e. the MINIMUM of x-y —
the opposite of the claim's TR/BL formulas. -/
theorem order_points_extremal (pts : List Pt) (hne : pts ≠ []) :
    ((order_points pts).tl ∈ pts ∧
      ∀ p ∈ pts, (order_points pts).tl.x + (order_points pts).tl.y ≤ p.x + p.y) ∧
    ((order_points pts).br ∈ pts ∧
      ∀ p ∈ pts, p.x + p.y ≤ (order_points pts).br.x + (order_points pts).br.y) ∧
    ((order_points pts).tr ∈ pts ∧
      ∀ p ∈ pts, p.x - p.y ≤ (order_points pts).tr.x - (order_points pts).tr.y) ∧
    ((order_points pts).bl ∈ pts ∧
      ∀ p ∈ pts, (order_points pts).bl.x - (order_points pts).bl.y ≤ p.x - p.y) := by
  simp only [order_points]
  refine ⟨⟨firstMinBy_mem _ _ hne, fun p hp => firstMinBy_le ptSum pts p hp⟩,
    ⟨firstMaxBy_mem _ _ hne, fun p hp => le_firstMaxBy ptSum pts p hp⟩,
    ⟨firstMinBy_mem _ _ hne, fun p hp => ?_⟩,
    ⟨firstMaxBy_mem _ _ hne, fun p hp => ?_⟩⟩
  · have h := firstMinBy_le ptDiff pts p hp
    simp only [ptDiff] at h
    linarith
  · have h := le_firstMaxBy ptDiff pts p hp
    simp only [ptDiff] at h
    linarith

/-- Witness for order_points_extremal at a concrete square: its TL
output is a member of the input list. -/
theorem order_points_extremal_witness :
    ([⟨0, 0⟩, ⟨10, 0⟩, ⟨10, 10⟩, ⟨0, 10⟩] : List Pt) ≠ [] ∧
    (order_points [⟨0, 0⟩, ⟨10, 0⟩, ⟨10, 10⟩, ⟨0, 10⟩]).tl ∈
      ([⟨0, 0⟩, ⟨10, 0⟩, ⟨10, 10⟩, ⟨0, 10⟩] : List Pt) :=
  ⟨by simp,
    (order_points_extremal [⟨0, 0⟩, ⟨10, 0⟩, ⟨10, 10⟩, ⟨0, 10⟩] (by simp)).1.1⟩

/-- Counterexample to C5 as stated: for the axis-aligned square
(0,0),(10,0),(10,10),(0,10), order_points assigns TR = (10,0),
whose x-y value is 10, while the member (0,10) has x-y = -10; so
TR is not the point with minimum (x-y) (that point is BL). -/
theorem order_points_tr_not_min_x_sub_y :
    (⟨0, 10⟩ : Pt) ∈ ([⟨0, 0⟩, ⟨10, 0⟩, ⟨10, 10⟩, ⟨0, 10⟩] : List Pt) ∧
    (order_points [⟨0, 0⟩, ⟨10, 0⟩, ⟨10, 10⟩, ⟨0, 10⟩]).tr = ⟨10, 0⟩ ∧
    (⟨0, 10⟩ : Pt).x - (⟨0, 10⟩ : Pt).y <
      (order_points [⟨0, 0⟩, ⟨10, 0⟩, ⟨10, 10⟩, ⟨0, 10⟩]).tr.x -
      (order_points [⟨0, 0⟩, ⟨10, 0⟩, ⟨10, 10⟩, ⟨0, 10⟩]).tr.y := by
  refine ⟨by simp, ?_, ?_⟩ <;>
    norm_num [order_points, firstMinBy, ptDiff]

theorem firstMinBy_attains (f : Pt → ℚ) (l : List Pt) (h : l ≠ []) :
    AttainsMin f l (firstMinBy f l) :=
  ⟨firstMinBy_mem f l h, fun q hq => firstMinBy_le f l q hq⟩

theorem firstMaxBy_attains (f : Pt → ℚ) (l : List Pt) (h : l ≠ []) :
    AttainsMax f l (firstMaxBy f l) :=
  ⟨firstMaxBy_mem f l h, fun q hq => le_firstMaxBy f l q hq⟩

theorem attainsMin_of_perm (f : Pt → ℚ) {l l' : List Pt} (hp : l.Perm l')
    {p : Pt} (h : AttainsMin f l' p) : AttainsMin f l p :=
  ⟨hp.mem_iff.mpr h.1, fun q hq => h.2 q (hp.subset hq)⟩

theorem attainsMax_of_perm (f : Pt → ℚ) {l l' : List Pt} (hp : l.Perm l')
    {p : Pt} (h : AttainsMax f l' p) : AttainsMax f l p :=
  ⟨hp.mem_iff.mpr h.1, fun q hq => h.2 q (hp.subset hq)⟩

/-- C8 (amended): the corner-ordering result is invariant under
permutation of the 4-point input, provided each extremal functional
(min and max of x+y, min and max of y-x) is attained by a unique
point of the list. Tie situations (as in a 45-degree rotated
square) are excluded; there argmin/argmax pick the first attaining
index, which depends on input order. -/
theorem order_points_perm_invariant (l l' : List Pt) (hp : l.Perm l')
    (h1 : UniqueMinBy ptSum l) (h2 : UniqueMaxBy ptSum l)
    (h3 : UniqueMinBy ptDiff l) (h4 : UniqueMaxBy ptDiff l) :
    order_points l = order_points l' := by
  rcases eq_or_ne l ([] : List Pt) with hl | hl
  · subst hl
    have : l' = [] := hp.symm.eq_nil
    subst this
    rfl
  · have hl' : l' ≠ [] := by
      intro hc
      subst hc
      exact hl hp.eq_nil
    have e1 : firstMinBy ptSum l = firstMinBy ptSum l' :=
      h1 _ _ (firstMinBy_attains _ _ hl)
        (attainsMin_of_perm _ hp (firstMinBy_attains _ _ hl'))
    have e2 : firstMaxBy ptSum l = firstMaxBy ptSum l' :=
      h2 _ _ (firstMaxBy_attains _ _ hl)
        (attainsMax_of_perm _ hp (firstMaxBy_attains _ _ hl'))
    have e3 : firstMinBy ptDiff l = firstMinBy ptDiff l' :=
      h3 _ _ (firstMinBy_attains _ _ hl)
        (attainsMin_of_perm _ hp (firstMinBy_attains _ _ hl'))
    have e4 : firstMaxBy ptDiff l = firstMaxBy ptDiff l' :=
      h4 _ _ (firstMaxBy_attains _ _ hl)
        (attainsMax_of_perm _ hp (firstMaxBy_attains _ _ hl'))
    simp [order_points, e1, e2, e3, e4]

/-- Witness for order_points_perm_invariant: an axis-aligned square
under a transposition of its first two points. -/
theorem order_points_perm_invariant_witness :
    (([⟨0, 0⟩, ⟨10, 0⟩, ⟨10, 10⟩, ⟨0, 10⟩] : List Pt).Perm
        [⟨10, 0⟩, ⟨0, 0⟩, ⟨10, 10⟩, ⟨0, 10⟩] ∧
      UniqueMinBy ptSum [⟨0, 0⟩, ⟨10, 0⟩, ⟨10, 10⟩, ⟨0, 10⟩] ∧
      UniqueMaxBy ptSum [⟨0, 0⟩, ⟨10, 0⟩, ⟨10, 10⟩, ⟨0, 10⟩] ∧
      UniqueMinBy ptDiff [⟨0, 0⟩, ⟨10, 0⟩, ⟨10, 10⟩, ⟨0, 10⟩] ∧
      UniqueMaxBy ptDiff [⟨0, 0⟩, ⟨10, 0⟩, ⟨10, 10⟩, ⟨0, 10⟩]) ∧
    order_points [⟨0, 0⟩, ⟨10, 0⟩, ⟨10, 10⟩, ⟨0, 10⟩] =
      order_points [⟨10, 0⟩, ⟨0, 0⟩, ⟨10, 10⟩, ⟨0, 10⟩] := by
  have hperm : ([⟨0, 0⟩, ⟨10, 0⟩, ⟨10, 10⟩, ⟨0, 10⟩] : List Pt).Perm
      [⟨10, 0⟩, ⟨0, 0⟩, ⟨10, 10⟩, ⟨0, 10⟩] :=
    List.Perm.swap _ _ _
  have hu1 : UniqueMinBy ptSum [⟨0, 0⟩, ⟨10, 0⟩, ⟨10, 10⟩, ⟨0, 10⟩] := by
    intro p q hp hq
    obtain ⟨hpm, hpmin⟩ := hp
    obtain ⟨hqm, hqmin⟩ := hq
    have h1 := hpmin ⟨0, 0⟩ (by simp)
    have h2 := hqmin ⟨0, 0⟩ (by simp)
    fin_cases hpm <;> fin_cases hqm <;>
      first
        | rfl
        | (exfalso; revert h1 h2; norm_num [ptSum])
  have hu2 : UniqueMaxBy ptSum [⟨0, 0⟩, ⟨10, 0⟩, ⟨10, 10⟩, ⟨0, 10⟩] := by
    intro p q hp hq
    obtain ⟨hpm, hpmax⟩ := hp
    obtain ⟨hqm, hqmax⟩ := hq
    have h1 := hpmax ⟨10, 10⟩ (by simp)
    have h2 := hqmax ⟨10, 10⟩ (by simp)
    fin_cases hpm <;> fin_cases hqm <;>
      first
        | rfl
        | (exfalso; revert h1 h2; norm_num [ptSum])
  have hu3 : UniqueMinBy ptDiff [⟨0, 0⟩, ⟨10, 0⟩, ⟨10, 10⟩, ⟨0, 10⟩] := by
    intro p q hp hq
    obtain ⟨hpm, hpmin⟩ := hp
    obtain ⟨hqm, hqmin⟩ := hq
    have h1 := hpmin ⟨10, 0⟩ (by simp)
    have h2 := hqmin ⟨10, 0⟩ (by simp)
    fin_cases hpm <;> fin_cases hqm <;>
      first
        | rfl
        | (exfalso; revert h1 h2; norm_num [ptDiff])
  have hu4 : UniqueMaxBy ptDiff [⟨0, 0⟩, ⟨10, 0⟩, ⟨10, 10⟩, ⟨0, 10⟩] := by
    intro p q hp hq
    obtain ⟨hpm, hpmax⟩ := hp
    obtain ⟨hqm, hqmax⟩ := hq
    have h1 := hpmax ⟨0, 10⟩ (by simp)
    have h2 := hqmax ⟨0, 10⟩ (by simp)
    fin_cases hpm <;> fin_cases hqm <;>
      first
        | rfl
        | (exfalso; revert h1 h2; norm_num [ptDiff])
  exact ⟨⟨hperm, hu1, hu2, hu3, hu4⟩,
    order_points_perm_invariant _ _ hperm hu1 hu2 hu3 hu4⟩

/-- Counterexample to C8 as stated: the diamond
(1,0),(2,1),(1,2),(0,1) is a convex quadrilateral (all four turns
have positive cross product), yet transposing the two middle points
of the input changes the computed BR corner, because (2,1) and
(1,2) tie on x+y and argmax keeps the first occurrence. -/
theorem order_points_not_perm_invariant :
    (0 < crossZ ⟨1, 0⟩ ⟨2, 1⟩ ⟨1, 2⟩ ∧ 0 < crossZ ⟨2, 1⟩ ⟨1, 2⟩ ⟨0, 1⟩ ∧
      0 < crossZ ⟨1, 2⟩ ⟨0, 1⟩ ⟨1, 0⟩ ∧ 0 < crossZ ⟨0, 1⟩ ⟨1, 0⟩ ⟨2, 1⟩) ∧
    ([⟨1, 0⟩, ⟨2, 1⟩, ⟨1, 2⟩, ⟨0, 1⟩] : List Pt).Perm
      [⟨1, 0⟩, ⟨1, 2⟩, ⟨2, 1⟩, ⟨0, 1⟩] ∧
    (order_points [⟨1, 0⟩, ⟨2, 1⟩, ⟨1, 2⟩, ⟨0, 1⟩]).br = ⟨2, 1⟩ ∧
    (order_points [⟨1, 0⟩, ⟨1, 2⟩, ⟨2, 1⟩, ⟨0, 1⟩]).br = ⟨1, 2⟩ ∧
    order_points [⟨1, 0⟩, ⟨2, 1⟩, ⟨1, 2⟩, ⟨0, 1⟩] ≠
      order_points [⟨1, 0⟩, ⟨1, 2⟩, ⟨2, 1⟩, ⟨0, 1⟩] := by
  have hbr1 : (order_points [⟨1, 0⟩, ⟨2, 1⟩, ⟨1, 2⟩, ⟨0, 1⟩]).br = ⟨2, 1⟩ := by
    norm_num [order_points, firstMaxBy, ptSum]
  have hbr2 : (order_points [⟨1, 0⟩, ⟨1, 2⟩, ⟨2, 1⟩, ⟨0, 1⟩]).br = ⟨1, 2⟩ := by
    norm_num [order_points, firstMaxBy, ptSum]
  refine ⟨by norm_num [crossZ], List.Perm.cons _ (List.Perm.swap _ _ _),
    hbr1, hbr2, fun hc => ?_⟩
  rw [hc, hbr2] at hbr1
  exact absurd (congrArg Pt.x hbr1) (by norm_num)

theorem isqrtQ_mono {a b : ℚ} (h : a ≤ b) : isqrtQ a ≤ isqrtQ b :=
  Nat.sqrt_le_sqrt (Int.toNat_le_toNat (Int.floor_le_floor h))

theorem isqrtQ_max (a b : ℚ) : isqrtQ (max a b) = max (isqrtQ a) (isqrtQ b) := by
  rcases le_total a b with h | h
  · rw [max_eq_right h, max_eq_right (isqrtQ_mono h)]
  · rw [max_eq_left h, max_eq_left (isqrtQ_mono h)]

theorem sqrt_eval {n a : ℕ} (h1 : a * a ≤ n) (h2 : n < (a + 1) * (a + 1)) :
    Nat.sqrt n = a :=
  (Nat.eq_sqrt.mpr ⟨h1, h2⟩).symm

/-- C6 (amended): each output dimension of the perspective
transform is the FLOOR (truncation, via Python's int()) of the
larger of the two opposite-edge lengths — not its rounding to the
nearest integer as the claim states. Lengths are represented by
their squares, and isqrtQ computes the floor of the square root. -/
theorem four_point_transform_size_floor_max (pts : List Pt) :
    four_point_transform_size pts =
      (isqrtQ (max (sqDist (order_points pts).br (order_points pts).bl)
          (sqDist (order_points pts).tr (order_points pts).tl)),
        isqrtQ (max (sqDist (order_points pts).tr (order_points pts).br)
          (sqDist (order_points pts).tl (order_points pts).bl))) := by
  simp [four_point_transform_size, isqrtQ_max]

/-- Counterexample to C6 as stated: for the corner points
(0,0),(12,0),(14,3),(0,3), the TR-BR edge has squared length 13 and
the TL-BL edge squared length 9, so the true larger height-edge
length is sqrt 13 = 3.605..., strictly between 3.5 and 4: rounding
gives 4, but the code computes height 3 (truncation). The claimed
round formula gives roundSqrtNat 13 = 4, differing from the code. -/
theorem four_point_transform_size_not_round :
    four_point_transform_size [⟨0, 0⟩, ⟨12, 0⟩, ⟨14, 3⟩, ⟨0, 3⟩] = (14, 3) ∧
    sqDist (order_points [⟨0, 0⟩, ⟨12, 0⟩, ⟨14, 3⟩, ⟨0, 3⟩]).tr
      (order_points [⟨0, 0⟩, ⟨12, 0⟩, ⟨14, 3⟩, ⟨0, 3⟩]).br = 13 ∧
    ((7 : ℚ) / 2) ^ 2 < 13 ∧ (13 : ℚ) < 4 ^ 2 ∧
    roundSqrtNat 13 = 4 ∧ (3 : ℕ) ≠ 4 := by
  have hop : order_points [⟨0, 0⟩, ⟨12, 0⟩, ⟨14, 3⟩, ⟨0, 3⟩] =
      ⟨⟨0, 0⟩, ⟨12, 0⟩, ⟨14, 3⟩, ⟨0, 3⟩⟩ := by
    norm_num [order_points, firstMinBy, firstMaxBy, ptSum, ptDiff,
      OrderedQuad.mk.injEq]
  have hrs : roundSqrtNat 13 = 4 := by
    have h : Nat.sqrt (4 * 13) = 7 := sqrt_eval (by norm_num) (by norm_num)
    simp [roundSqrtNat, h]
  refine ⟨?_, ?_, by norm_num, by norm_num, hrs, by norm_num⟩
  · rw [four_point_transform_size, hop]
    have h1 : sqDist (⟨14, 3⟩ : Pt) ⟨0, 3⟩ = 196 := by norm_num [sqDist]
    have h2 : sqDist (⟨12, 0⟩ : Pt) ⟨0, 0⟩ = 144 := by norm_num [sqDist]
    have h3 : sqDist (⟨12, 0⟩ : Pt) ⟨14, 3⟩ = 13 := by norm_num [sqDist]
    have h4 : sqDist (⟨0, 0⟩ : Pt) ⟨0, 3⟩ = 9 := by norm_num [sqDist]
    simp only [h1, h2, h3, h4]
    have e1 : isqrtQ 196 = 14 := by
      have : ⌊(196 : ℚ)⌋ = 196 := by norm_num
      simp only [isqrtQ, this, Int.toNat_ofNat]
      exact sqrt_eval (by norm_num) (by norm_num)
    have e2 : isqrtQ 144 = 12 := by
      have : ⌊(144 : ℚ)⌋ = 144 := by norm_num
      simp only [isqrtQ, this, Int.toNat_ofNat]
      exact sqrt_eval (by norm_num) (by norm_num)
    have e3 : isqrtQ 13 = 3 := by
      have : ⌊(13 : ℚ)⌋ = 13 := by norm_num
      simp only [isqrtQ, this, Int.toNat_ofNat]
      exact sqrt_eval (by norm_num) (by norm_num)
    have e4 : isqrtQ 9 = 3 := by
      have : ⌊(9 : ℚ)⌋ = 9 := by norm_num
      simp only [isqrtQ, this, Int.toNat_ofNat]
      exact sqrt_eval (by norm_num) (by norm_num)
    simp [e1, e2, e3, e4]
  · rw [hop]
    norm_num [sqDist]

/-- C2 (amended): when fewer than 3 valid markers are found, the
alignment path fails by raising a plain generic Exception whose
message embeds the found count; it never raises the structured
MarkerDetectionError (that class exists in exceptions.py but is
never used), so the found/expected counts are not carried as
structured fields. -/
theorem detect_markers_generic_failure (found : ℕ) (h : found < 3) :
    detect_markers_check found = Except.error (.generic (markerErrMsg found)) ∧
    ∀ f e : ℕ,
      detect_markers_check found ≠ Except.error (.markerDetection f e) := by
  constructor
  · simp [detect_markers_check, h]
  · intro f e hc
    simp [detect_markers_check, h] at hc

/-- Witness for detect_markers_generic_failure at found = 2. -/
theorem detect_markers_generic_failure_witness :
    2 < 3 ∧
    (detect_markers_check 2 = Except.error (.generic (markerErrMsg 2)) ∧
      ∀ f e : ℕ,
        detect_markers_check 2 ≠ Except.error (.markerDetection f e)) :=
  ⟨by decide, detect_markers_generic_failure 2 (by decide)⟩

/-- Counterexample to C2 as stated: with 2 markers found, the
raised error is the plain generic Exception, not a structured
MarkerDetectionError: its kind test evaluates to false. -/
theorem detect_markers_error_not_structured :
    detect_markers_check 2 = Except.error (.generic (markerErrMsg 2)) ∧
    PyError.isMarkerDetection (.generic (markerErrMsg 2)) = false := by
  constructor
  · simp [detect_markers_check]
  · rfl

/-- C3 (amended): when the final candidate count differs from the
expected count, the pipeline accepts it iff EITHER a truthy
question-count hint was supplied and the count is a positive
multiple of 5, OR the count exceeds 90 percent of the expected
count; the multiple-of-5 escape hatch is only reachable with a
hint, unlike the claim which grants it unconditionally. -/
theorem bubble_count_check_accepts_iff (numQuestions : Option ℕ) (count : ℕ)
    (h : count ≠ expected_bubbles numQuestions) :
    bubble_count_check numQuestions count = Except.ok count ↔
      ((truthy numQuestions = true ∧ 0 < count ∧ count % 5 = 0) ∨
        10 * count > 9 * expected_bubbles numQuestions) := by
  simp only [bubble_count_check, if_neg h]
  split
  · next hc => simp [hc]
  · next hc =>
    split
    · next hd => simp_all [hd]
    · next hd =>
      constructor
      · intro he
        simp at he
      · intro he
        rcases he with he | he
        · exact absurd ⟨he.1, he.2.1, he.2.2⟩ hc
        · exact absurd he hd

/-- Witness for bubble_count_check_accepts_iff: with a 40-question
hint and 195 candidates (not 200), the count is accepted. -/
theorem bubble_count_check_accepts_iff_witness :
    (195 ≠ expected_bubbles (some 40)) ∧
    (bubble_count_check (some 40) 195 = Except.ok 195 ↔
      ((truthy (some 40) = true ∧ 0 < 195 ∧ 195 % 5 = 0) ∨
        10 * 195 > 9 * expected_bubbles (some 40))) :=
  ⟨by decide, bubble_count_check_accepts_iff (some 40) 195 (by decide)⟩

/-- Counterexample to C3 as stated: with no question-count hint the
expected count is 200, and a final count of 150 — a positive
multiple of 5 — is rejected with an exception, although the claim
says any positive multiple of 5 is accepted. -/
theorem bubble_count_check_rejects_multiple_of_five :
    0 < 150 ∧ 150 % 5 = 0 ∧ expected_bubbles none = 200 ∧
    bubble_count_check none 150 =
      Except.error (.generic
        "Não foi possível isolar as 200 bolhas. Encontradas: 150.") := by
  refine ⟨by decide, by decide, rfl, ?_⟩
  simp [bubble_count_check, truthy, expected_bubbles]
  rfl

theorem pyInt_intCast (n : ℤ) : pyInt (n : ℚ) = n := by
  rcases le_or_lt 0 (n : ℚ) with h | h
  · simp [pyInt, h]
  · simp [pyInt, not_le.mpr h]

theorem pyRound_intCast (n : ℤ) : pyRound (n : ℚ) = n := by
  have hf : ⌊(n : ℚ)⌋ = n := Int.floor_intCast n
  simp [pyRound, hf]

theorem evenRun_zero (x0 s y w h : ℤ) : evenRun x0 s y w h 0 = [] := rfl

theorem evenRun_succ (x0 s y w h : ℤ) (n : ℕ) :
    evenRun x0 s y w h (n + 1) =
      ⟨x0, y, w, h⟩ :: evenRun (x0 + s) s y w h n := by
  simp only [evenRun, List.range_succ_eq_map, List.map_cons, List.map_map]
  congr 1
  · simp
  · apply List.map_congr_left
    intro i _
    simp only [Function.comp_apply, Box.mk.injEq, and_true]
    push_cast
    ring

theorem evenRun_length (x0 s y w h : ℤ) (n : ℕ) :
    (evenRun x0 s y w h n).length = n := by
  simp [evenRun]

theorem mem_evenRun {x0 s y w h : ℤ} {n : ℕ} {b : Box} :
    b ∈ evenRun x0 s y w h n ↔
      ∃ i : ℕ, i < n ∧ b = ⟨x0 + (i : ℤ) * s, y, w, h⟩ := by
  simp only [evenRun, List.mem_map, List.mem_range]
  constructor
  · rintro ⟨i, hi, rfl⟩
    exact ⟨i, hi, rfl⟩
  · rintro ⟨i, hi, rfl⟩
    exact ⟨i, hi, rfl⟩

theorem evenRun_sorted (x0 s y w h : ℤ) (n : ℕ) (hs : 0 ≤ s) :
    List.Sorted boxLe (evenRun x0 s y w h n) := by
  induction n generalizing x0 with
  | zero => simp [evenRun_zero]
  | succ n ih =>
    rw [evenRun_succ]
    refine List.sorted_cons.mpr ⟨fun c hc => ?_, ih (x0 + s)⟩
    obtain ⟨i, _, rfl⟩ := mem_evenRun.mp hc
    show x0 ≤ x0 + s + (i : ℤ) * s
    have : (0 : ℤ) ≤ (i : ℤ) * s := mul_nonneg (Int.natCast_nonneg i) hs
    linarith

theorem evenRun_append_sorted (x0 s y w h : ℤ) (k m : ℕ) (hs : 0 ≤ s) :
    List.Sorted boxLe
      (evenRun x0 s y w h k ++ evenRun (x0 + ((k : ℤ) + 1) * s) s y w h m) := by
  rw [List.Sorted, List.pairwise_append]
  refine ⟨evenRun_sorted _ _ _ _ _ _ hs, evenRun_sorted _ _ _ _ _ _ hs,
    fun a ha b hb => ?_⟩
  obtain ⟨i, hik, rfl⟩ := mem_evenRun.mp ha
  obtain ⟨j, _, rfl⟩ := mem_evenRun.mp hb
  show x0 + (i : ℤ) * s ≤ x0 + ((k : ℤ) + 1) * s + (j : ℤ) * s
  have h1 : (i : ℤ) * s ≤ ((k : ℤ) + 1) * s := by
    apply mul_le_mul_of_nonneg_right _ hs
    have : (i : ℤ) ≤ (k : ℤ) := Int.ofNat_le.mpr (Nat.le_of_lt hik)
    linarith
  have h2 : (0 : ℤ) ≤ (j : ℤ) * s := mul_nonneg (Int.natCast_nonneg j) hs
  linarith

theorem sorted_le_replicate (n : ℕ) (c : ℚ) :
    List.Sorted (· ≤ ·) (List.replicate n c) := by
  induction n with
  | zero => simp
  | succ n ih =>
    rw [List.replicate_succ]
    exact List.sorted_cons.mpr
      ⟨fun b hb => le_of_eq (List.eq_of_mem_replicate hb).symm, ih⟩

theorem npMedian_replicate (n : ℕ) (hn : 1 ≤ n) (c : ℚ) :
    npMedian (List.replicate n c) = c := by
  have hlen : (List.replicate n c).length = n := List.length_replicate n c
  have hsort : List.insertionSort (· ≤ ·) (List.replicate n c) =
      List.replicate n c :=
    List.Sorted.insertionSort_eq (sorted_le_replicate n c)
  have hget : ∀ i : ℕ, i < n → (List.replicate n c).getD i 0 = c := by
    intro i hi
    rw [List.getD_eq_getElem _ _ (by simpa [hlen] using hi)]
    simp
  simp only [npMedian, hsort, hlen]
  rcases Nat.eq_zero_or_pos n with h0 | h0
  · omega
  · rw [if_neg (by omega)]
    rcases Nat.even_or_odd n with he | ho
    · have he2 : n % 2 = 0 := Nat.even_iff.mp he
      have hmod : ¬ n % 2 = 1 := by omega
      rw [if_neg hmod]
      rw [hget (n / 2 - 1) (by omega), hget (n / 2) (by omega)]
      ring
    · have hmod : n % 2 = 1 := Nat.odd_iff.mp ho
      rw [if_pos hmod]
      exact hget (n / 2) (by omega)

theorem npMedian_almost_const (a b : ℕ) (c : ℚ) (hc : 0 < c)
    (hlen : 3 ≤ a + b + 1) :
    npMedian (List.replicate a c ++ (2 * c) :: List.replicate b c) = c := by
  set L : List ℚ := List.replicate a c ++ (2 * c) :: List.replicate b c with hL
  have hlenL : L.length = a + b + 1 := by
    rw [hL]
    simp
    omega
  have hmid : ((2 * c) :: List.replicate b c).Perm
      (List.replicate b c ++ [2 * c]) :=
    (List.perm_append_singleton _ _).symm
  have hperm : L.Perm (List.replicate (a + b) c ++ [2 * c]) := by
    rw [hL, List.replicate_add, List.append_assoc]
    exact List.Perm.append_left _ hmid
  have hsorted2 : List.Sorted (· ≤ ·) (List.replicate (a + b) c ++ [2 * c]) := by
    rw [List.Sorted, List.pairwise_append]
    refine ⟨sorted_le_replicate _ _, List.pairwise_singleton _ _,
      fun x hx y hy => ?_⟩
    rw [List.eq_of_mem_replicate hx, List.mem_singleton.mp hy]
    linarith
  have hsort : List.insertionSort (· ≤ ·) L =
      List.replicate (a + b) c ++ [2 * c] :=
    List.eq_of_perm_of_sorted ((List.perm_insertionSort _ _).trans hperm)
      (List.sorted_insertionSort _ _) hsorted2
  have hget : ∀ i : ℕ, i < a + b →
      (List.replicate (a + b) c ++ [2 * c]).getD i 0 = c := by
    intro i hi
    rw [List.getD_append _ _ _ _ (by simpa using hi)]
    rw [List.getD_eq_getElem _ _ (by simpa using hi)]
    simp
  simp only [npMedian, hsort, hlenL]
  rw [if_neg (by omega)]
  rcases Nat.even_or_odd (a + b + 1) with he | ho
  · have he2 : (a + b + 1) % 2 = 0 := Nat.even_iff.mp he
    have hmod : ¬ (a + b + 1) % 2 = 1 := by omega
    rw [if_neg hmod]
    rw [hget ((a + b + 1) / 2 - 1) (by omega), hget ((a + b + 1) / 2) (by omega)]
    ring
  · have hmod : (a + b + 1) % 2 = 1 := Nat.odd_iff.mp ho
    rw [if_pos hmod]
    exact hget ((a + b + 1) / 2) (by omega)

theorem gapsQ_nil : gapsQ [] = [] := rfl

theorem gapsQ_single (b : Box) : gapsQ [b] = [] := rfl

theorem gapsQ_cons_cons (a b : Box) (t : List Box) :
    gapsQ (a :: b :: t) = ((b.x : ℚ) - (a.x : ℚ)) :: gapsQ (b :: t) := by
  simp [gapsQ]

theorem gapsQ_evenRun (x0 s y w h : ℤ) (n : ℕ) :
    gapsQ (evenRun x0 s y w h n) = List.replicate (n - 1) ((s : ℤ) : ℚ) := by
  induction n generalizing x0 with
  | zero => simp [evenRun_zero, gapsQ_nil]
  | succ n ih =>
    cases n with
    | zero => simp [evenRun_succ, evenRun_zero, gapsQ_single]
    | succ m =>
      rw [evenRun_succ, evenRun_succ, gapsQ_cons_cons, ← evenRun_succ,
        ih (x0 + s)]
      simp only [Nat.succ_sub_one]
      rw [List.replicate_succ]
      congr 1
      push_cast
      ring

theorem gapsQ_missing (x0 s y w h : ℤ) (k m : ℕ) (hk : 1 ≤ k) (hm : 1 ≤ m) :
    gapsQ (evenRun x0 s y w h k ++
        evenRun (x0 + ((k : ℤ) + 1) * s) s y w h m) =
      List.replicate (k - 1) ((s : ℤ) : ℚ) ++
        ((2 * s : ℤ) : ℚ) :: List.replicate (m - 1) ((s : ℤ) : ℚ) := by
  induction k generalizing x0 with
  | zero => omega
  | succ k ih =>
    cases k with
    | zero =>
      obtain ⟨m', rfl⟩ : ∃ m', m = m' + 1 := ⟨m - 1, by omega⟩
      rw [evenRun_succ, evenRun_zero, List.singleton_append, evenRun_succ,
        gapsQ_cons_cons, ← evenRun_succ, gapsQ_evenRun]
      simp only [Nat.succ_sub_one, Nat.zero_add, List.replicate_zero,
        List.nil_append]
      congr 1
      push_cast
      ring
    | succ j =>
      have hj : 1 ≤ j + 1 := by omega
      have hx : x0 + (((j + 1 + 1 : ℕ) : ℤ) + 1) * s =
          (x0 + s) + (((j + 1 : ℕ) : ℤ) + 1) * s := by
        push_cast
        ring
      rw [evenRun_succ, List.cons_append, hx, evenRun_succ, List.cons_append,
        gapsQ_cons_cons, ← List.cons_append, ← evenRun_succ, ih (x0 + s) hj]
      simp only [Nat.succ_sub_one]
      rw [List.replicate_succ, List.cons_append]
      congr 1
      push_cast
      ring

theorem synthBoxes_step_eq (sz : ℤ) (hs : 0 < sz) (w' : ℚ) (c1 c2 : Box)
    (h : c2.x = c1.x + sz) :
    synthBoxes ((sz : ℤ) : ℚ) w' c1 c2 = [] := by
  have hdist : (c2.x : ℚ) - (c1.x : ℚ) = (sz : ℚ) := by
    rw [h]
    push_cast
    ring
  rw [synthBoxes]
  simp only [hdist]
  rw [if_neg]
  have hsq : (0 : ℚ) < (sz : ℚ) := by exact_mod_cast hs
  intro hc
  nlinarith

theorem synthBoxes_double_eq (sz : ℤ) (hs : 0 < sz) (w' : ℤ) (c1 c2 : Box)
    (h : c2.x = c1.x + 2 * sz) :
    synthBoxes ((sz : ℤ) : ℚ) ((w' : ℤ) : ℚ) c1 c2 =
      [⟨c1.x + sz, c1.y, w', c1.h⟩] := by
  have hsq : (0 : ℚ) < (sz : ℚ) := by exact_mod_cast hs
  have hdist : (c2.x : ℚ) - (c1.x : ℚ) = 2 * (sz : ℚ) := by
    rw [h]
    push_cast
    ring
  rw [synthBoxes]
  simp only [hdist]
  rw [if_pos (by nlinarith)]
  have hdiv : 2 * (sz : ℚ) / (sz : ℚ) = ((2 : ℤ) : ℚ) := by
    rw [mul_div_assoc, div_self (ne_of_gt hsq)]
    norm_num
  rw [hdiv, pyRound_intCast]
  have hmiss : (2 : ℤ) - 1 = 1 := by norm_num
  rw [hmiss, if_pos (by norm_num)]
  have hr1 : List.range (Int.toNat 1) = [0] := rfl
  rw [hr1]
  simp only [List.map_cons, List.map_nil]
  congr 1
  simp only [Box.mk.injEq]
  refine ⟨?_, trivial, ?_, trivial⟩
  · have e1 : (c1.x : ℚ) + (sz : ℚ) * (((0 : ℕ) : ℚ) + 1) =
        ((c1.x + sz : ℤ) : ℚ) := by
      push_cast
      ring
    rw [e1, pyInt_intCast]
  · exact pyInt_intCast w'

theorem fillGaps_evenRun (sz : ℤ) (hs : 0 < sz) (w' : ℚ) (x0 y w h : ℤ)
    (n : ℕ) :
    fillGaps ((sz : ℤ) : ℚ) w' (evenRun x0 sz y w h n) =
      evenRun x0 sz y w h n := by
  induction n generalizing x0 with
  | zero => simp [evenRun_zero, fillGaps]
  | succ n ih =>
    cases n with
    | zero => simp [evenRun_succ, evenRun_zero, fillGaps]
    | succ m =>
      rw [evenRun_succ, evenRun_succ, fillGaps, ← evenRun_succ]
      rw [synthBoxes_step_eq sz hs w' _ _ (by simp), ih (x0 + sz)]
      simp

theorem fillGaps_missing (sz : ℤ) (hs : 0 < sz) (x0 y w h : ℤ) (k m : ℕ)
    (hk : 1 ≤ k) (hm : 1 ≤ m) :
    fillGaps ((sz : ℤ) : ℚ) ((w : ℤ) : ℚ)
      (evenRun x0 sz y w h k ++
        evenRun (x0 + ((k : ℤ) + 1) * sz) sz y w h m) =
      evenRun x0 sz y w h (k + 1 + m) := by
  induction k generalizing x0 with
  | zero => omega
  | succ k ih =>
    cases k with
    | zero =>
      obtain ⟨m', rfl⟩ : ∃ m', m = m' + 1 := ⟨m - 1, by omega⟩
      rw [evenRun_succ, evenRun_zero, List.singleton_append, evenRun_succ,
        fillGaps, ← evenRun_succ]
      have hx2 : x0 + (((0 + 1 : ℕ) : ℤ) + 1) * sz = x0 + 2 * sz := by
        push_cast
        ring
      rw [hx2]
      rw [synthBoxes_double_eq sz hs w _ _ (by simp)]
      rw [fillGaps_evenRun sz hs _ (x0 + 2 * sz) y w h (m' + 1)]
      have target : evenRun x0 sz y w h (0 + 1 + 1 + (m' + 1)) =
          ⟨x0, y, w, h⟩ :: ⟨x0 + sz, y, w, h⟩ ::
            evenRun (x0 + sz + sz) sz y w h (m' + 1) := by
        have : 0 + 1 + 1 + (m' + 1) = (m' + 1) + 1 + 1 := by omega
        rw [this, evenRun_succ, evenRun_succ]
      rw [target]
      have : x0 + sz + sz = x0 + 2 * sz := by ring
      rw [this]
      simp
    | succ j =>
      have hj : 1 ≤ j + 1 := by omega
      have hx : x0 + (((j + 1 + 1 : ℕ) : ℤ) + 1) * sz =
          (x0 + sz) + (((j + 1 : ℕ) : ℤ) + 1) * sz := by
        push_cast
        ring
      rw [evenRun_succ, List.cons_append, hx, evenRun_succ, List.cons_append,
        fillGaps]
      have harg : (⟨x0 + sz, y, w, h⟩ : Box) ::
          (evenRun (x0 + sz + sz) sz y w h j ++
            evenRun (x0 + sz + (((j + 1 : ℕ) : ℤ) + 1) * sz) sz y w h m) =
          evenRun (x0 + sz) sz y w h (j + 1) ++
            evenRun ((x0 + sz) + (((j + 1 : ℕ) : ℤ) + 1) * sz) sz y w h m := by
        rw [evenRun_succ, List.cons_append]
      rw [harg, ih (x0 + sz) hj, synthBoxes_step_eq sz hs _ _ _ (by simp)]
      have target : evenRun x0 sz y w h (j + 1 + 1 + 1 + m) =
          ⟨x0, y, w, h⟩ :: evenRun (x0 + sz) sz y w h (j + 1 + 1 + m) := by
        have : j + 1 + 1 + 1 + m = (j + 1 + 1 + m) + 1 := by omega
        rw [this, evenRun_succ]
      rw [target]
      simp

theorem evenRun_map_w (x0 sz y w h : ℤ) (n : ℕ) :
    (evenRun x0 sz y w h n).map (fun b => (b.w : ℚ)) =
      List.replicate n ((w : ℤ) : ℚ) := by
  rw [evenRun, List.map_map]
  have : ((fun b : Box => (b.w : ℚ)) ∘ fun i : ℕ =>
      (⟨x0 + (i : ℤ) * sz, y, w, h⟩ : Box)) = fun _ : ℕ => ((w : ℤ) : ℚ) := by
    funext i
    rfl
  rw [this]
  have hmc := List.map_const (List.range n) ((w : ℤ) : ℚ)
  have hfc : (Function.const ℕ ((w : ℤ) : ℚ)) = fun _ : ℕ => ((w : ℤ) : ℚ) :=
    rfl
  rw [hfc] at hmc
  rw [hmc, List.length_range]

/-- C4 (amended): the per-row reconstruction, exactly as embedded
from the source (sort left-to-right, median start-to-start gap,
fill any gap above 1.5x the median with round(gap/median) - 1
synthetic boxes of the row's median width and the left neighbor's
height), restores a row of N evenly spaced bubbles with one
INTERIOR bubble removed back to all N candidates, with the missing
bubble reinserted at exactly its true position — provided N is at
least 5. (For N up to 4, or when an endpoint bubble is removed, the
restoration claimed by the specification does not happen.) -/
theorem reconstruct_row_restores (x0 sz y w h : ℤ) (N k : ℕ)
    (hN : 5 ≤ N) (hk1 : 1 ≤ k) (hk2 : k ≤ N - 2) (hs : 0 < sz) :
    processRow (evenRun x0 sz y w h k ++
        evenRun (x0 + ((k : ℤ) + 1) * sz) sz y w h (N - 1 - k)) =
      evenRun x0 sz y w h N := by
  set m := N - 1 - k with hmdef
  have hm1 : 1 ≤ m := by omega
  set row := evenRun x0 sz y w h k ++
    evenRun (x0 + ((k : ℤ) + 1) * sz) sz y w h m with hrowdef
  have hsorted : List.Sorted boxLe row :=
    evenRun_append_sorted x0 sz y w h k m (le_of_lt hs)
  have hsort_eq : List.insertionSort boxLe row = row :=
    List.Sorted.insertionSort_eq hsorted
  have hlen : row.length = k + m := by
    simp [hrowdef, evenRun_length]
  have hwidths : row.map (fun b => (b.w : ℚ)) =
      List.replicate (k + m) ((w : ℤ) : ℚ) := by
    rw [hrowdef, List.map_append, evenRun_map_w, evenRun_map_w,
      ← List.replicate_add]
  have hgaps : gapsQ row =
      List.replicate (k - 1) ((sz : ℤ) : ℚ) ++
        ((2 * sz : ℤ) : ℚ) :: List.replicate (m - 1) ((sz : ℤ) : ℚ) :=
    gapsQ_missing x0 sz y w h k m hk1 hm1
  have hgaps_ne : gapsQ row ≠ [] := by
    rw [hgaps]
    simp
  have hmed_w : npMedian (row.map fun b => (b.w : ℚ)) = ((w : ℤ) : ℚ) := by
    rw [hwidths]
    exact npMedian_replicate (k + m) (by omega) _
  have hmed_g : npMedian (gapsQ row) = ((sz : ℤ) : ℚ) := by
    rw [hgaps]
    have hc : ((2 * sz : ℤ) : ℚ) = 2 * ((sz : ℤ) : ℚ) := by push_cast; ring
    rw [hc]
    exact npMedian_almost_const (k - 1) (m - 1) _ (by exact_mod_cast hs)
      (by omega)
  rw [processRow]
  simp only [hsort_eq]
  rw [if_neg (by omega)]
  rw [if_neg hgaps_ne, hmed_g, hmed_w]
  have hfill := fillGaps_missing sz hs x0 y w h k m hk1 hm1
  rw [← hrowdef] at hfill
  rw [hfill]
  congr 1
  omega

/-- Witness for reconstruct_row_restores: a 5-bubble row at step 10
with the middle bubble (index 2) removed is fully restored. -/
theorem reconstruct_row_restores_witness :
    (5 ≤ 5 ∧ 1 ≤ 2 ∧ 2 ≤ 5 - 2 ∧ (0 : ℤ) < 10) ∧
    processRow (evenRun 0 10 0 10 10 2 ++
        evenRun (0 + (((2 : ℕ) : ℤ) + 1) * 10) 10 0 10 10 (5 - 1 - 2)) =
      evenRun 0 10 0 10 10 5 :=
  ⟨⟨by norm_num, by norm_num, by norm_num, by norm_num⟩,
    reconstruct_row_restores 0 10 0 10 10 5 2 (by norm_num) (by norm_num)
      (by norm_num) (by norm_num)⟩

theorem processRow_evenRun (x0 sz y w h : ℤ) (n : ℕ) (hn : 2 ≤ n)
    (hs : 0 < sz) :
    processRow (evenRun x0 sz y w h n) = evenRun x0 sz y w h n := by
  have hsorted : List.Sorted boxLe (evenRun x0 sz y w h n) :=
    evenRun_sorted x0 sz y w h n (le_of_lt hs)
  have hsort_eq : List.insertionSort boxLe (evenRun x0 sz y w h n) =
      evenRun x0 sz y w h n :=
    List.Sorted.insertionSort_eq hsorted
  have hgaps : gapsQ (evenRun x0 sz y w h n) =
      List.replicate (n - 1) ((sz : ℤ) : ℚ) := gapsQ_evenRun x0 sz y w h n
  have hgaps_ne : gapsQ (evenRun x0 sz y w h n) ≠ [] := by
    rw [hgaps]
    intro hc
    have := congrArg List.length hc
    simp at this
    omega
  have hmed_g : npMedian (gapsQ (evenRun x0 sz y w h n)) = ((sz : ℤ) : ℚ) := by
    rw [hgaps]
    exact npMedian_replicate (n - 1) (by omega) _
  rw [processRow]
  simp only [hsort_eq]
  rw [if_neg (by rw [evenRun_length]; omega)]
  rw [if_neg hgaps_ne, hmed_g]
  exact fillGaps_evenRun sz hs _ x0 y w h n

/-- Counterexample to C4 as stated: take a row of N = 3 evenly
spaced bubbles at x = 0, 10, 20 (width 10) and remove the middle
one. The surviving row [0, 20] has a single gap of 20, which is
also the median gap, so 20 exceeds nothing (20 < 1.5 * 20) and no
synthetic bubble is inserted: the output is the 2-element input,
not the 3 candidates the claim promises for every N. -/
theorem processRow_does_not_restore_three :
    processRow [⟨0, 0, 10, 10⟩, ⟨20, 0, 10, 10⟩] =
      [⟨0, 0, 10, 10⟩, ⟨20, 0, 10, 10⟩] ∧
    (processRow [⟨0, 0, 10, 10⟩, ⟨20, 0, 10, 10⟩]).length = 2 := by
  have he : evenRun 0 20 0 10 10 2 = [⟨0, 0, 10, 10⟩, ⟨20, 0, 10, 10⟩] := by
    rw [evenRun_succ, evenRun_succ, evenRun_zero]
    norm_num
  have h := processRow_evenRun 0 20 0 10 10 2 (by norm_num) (by norm_num)
  rw [he] at h
  refine ⟨h, ?_⟩
  rw [h]
  rfl

/-- C7 (amended): for every candidate list of AT MOST 200 elements,
column sequencing returns a permutation of its input (for 200
candidates: the three columns 75/75/50 read top to bottom, taken
left to right). Beyond 200 elements the fixed iteration step drops
candidates, so the permutation property holds only up to 200. -/
theorem sort_bubbles_by_columns_perm (l : List Box) (hl : l.length ≤ 200) :
    (sort_bubbles_by_columns l).Perm l := by
  have hperm0 : (sort_left_to_right l).Perm l := List.perm_insertionSort _ _
  have hlen : (sort_left_to_right l).length = l.length := hperm0.length_eq
  rw [sort_bubbles_by_columns]
  refine List.Perm.trans ?_ hperm0
  set s := sort_left_to_right l with hs
  set n := s.length with hn
  have hn200 : n ≤ 200 := by omega
  rcases Nat.lt_or_ge n 1 with h0 | h1
  · have hz : n = 0 := by omega
    have hsnil : s = [] := List.length_eq_zero.mp hz
    rw [hz]
    have : colIndices 0 = [] := rfl
    rw [this]
    simp only [columnChunks, List.map_nil, List.flatten_nil]
    rw [hsnil]
  · rcases Nat.lt_or_ge n 76 with h75 | h76
    · have hc : (n + 74) / 75 = 1 := by omega
      have hidx : colIndices n = [0] := by
        rw [colIndices, hc]
        rfl
      rw [hidx]
      simp only [columnChunks, List.map_cons, List.map_nil, List.flatten,
        List.append_nil, List.drop_zero]
      have htake : s.take 75 = s := List.take_of_length_le (by omega)
      rw [htake]
      exact List.perm_insertionSort _ _
    · rcases Nat.lt_or_ge n 151 with h150 | h151
      · have hc : (n + 74) / 75 = 2 := by omega
        have hidx : colIndices n = [0, 75] := by
          rw [colIndices, hc]
          rfl
        rw [hidx]
        simp only [columnChunks, List.map_cons, List.map_nil, List.flatten,
          List.append_nil, List.drop_zero]
        rw [if_neg (by norm_num)]
        have htake : (s.drop 75).take 75 = s.drop 75 :=
          List.take_of_length_le (by rw [List.length_drop]; omega)
        rw [htake]
        have hsplit : s.take 75 ++ s.drop 75 = s := List.take_append_drop 75 s
        have hp : (sort_top_to_bottom (s.take 75) ++
            sort_top_to_bottom (s.drop 75)).Perm (s.take 75 ++ s.drop 75) :=
          (List.perm_insertionSort _ _).append (List.perm_insertionSort _ _)
        exact hp.trans (List.Perm.of_eq hsplit)
      · have hc : (n + 74) / 75 = 3 := by omega
        have hidx : colIndices n = [0, 75, 150] := by
          rw [colIndices, hc]
          rfl
        rw [hidx]
        simp only [columnChunks, List.map_cons, List.map_nil, List.flatten,
          List.append_nil, List.drop_zero]
        rw [if_neg (by norm_num), if_pos (by norm_num)]
        have htake : (s.drop 150).take 50 = s.drop 150 :=
          List.take_of_length_le (by rw [List.length_drop]; omega)
        rw [htake]
        have hsplit2 : s.take 75 ++ (s.drop 75).take 75 = s.take 150 :=
          (List.take_add s 75 75).symm
        have hsplit : s.take 150 ++ s.drop 150 = s := List.take_append_drop 150 s
        rw [← List.append_assoc]
        have hp : ((sort_top_to_bottom (s.take 75) ++
            sort_top_to_bottom ((s.drop 75).take 75)) ++
              sort_top_to_bottom (s.drop 150)).Perm
            ((s.take 75 ++ (s.drop 75).take 75) ++ s.drop 150) :=
          ((List.perm_insertionSort _ _).append
            (List.perm_insertionSort _ _)).append (List.perm_insertionSort _ _)
        refine hp.trans (List.Perm.of_eq ?_)
        rw [hsplit2, hsplit]

/-- Witness for sort_bubbles_by_columns_perm at a concrete
2-candidate list. -/
theorem sort_bubbles_by_columns_perm_witness :
    ([⟨5, 1, 2, 3⟩, ⟨1, 2, 3, 4⟩] : List Box).length ≤ 200 ∧
    (sort_bubbles_by_columns [⟨5, 1, 2, 3⟩, ⟨1, 2, 3, 4⟩]).Perm
      [⟨5, 1, 2, 3⟩, ⟨1, 2, 3, 4⟩] :=
  ⟨by norm_num,
    sort_bubbles_by_columns_perm [⟨5, 1, 2, 3⟩, ⟨1, 2, 3, 4⟩] (by norm_num)⟩

/-- Counterexample to C7 as stated: on 201 candidates the column
sequencing emits only 200 — the loop indices are fixed at 0, 75,
150 (the range object keeps step 75) while the last chunk is cut to
50 elements, so candidate 200 is silently dropped and the output is
not a permutation of the input. -/
theorem sort_bubbles_by_columns_drops_beyond_200 :
    manyBoxes.length = 201 ∧
    (sort_bubbles_by_columns manyBoxes).length = 200 := by
  constructor
  · simp [manyBoxes]
  · have hslen : (sort_left_to_right manyBoxes).length = 201 := by
      rw [sort_left_to_right, List.length_insertionSort]
      simp [manyBoxes]
    rw [sort_bubbles_by_columns]
    simp only [hslen]
    have hc : (201 + 74) / 75 = 3 := by norm_num
    have hidx : colIndices 201 = [0, 75, 150] := by
      rw [colIndices, hc]
      rfl
    rw [hidx]
    simp only [columnChunks, List.drop_zero, List.map_cons, List.map_nil]
    rw [if_neg (by norm_num), if_pos (by norm_num)]
    simp only [List.flatten_cons, List.flatten_nil, List.append_nil,
      List.length_append, sort_top_to_bottom, List.length_insertionSort,
      List.length_take, List.length_drop, hslen]
    omega

theorem foldr_max_mem : ∀ (l : List ℕ), l ≠ [] → l.foldr Nat.max 0 ∈ l
  | [], h => absurd rfl h
  | [a], _ => by simp
  | a :: b :: t, _ => by
    have ih := foldr_max_mem (b :: t) (by simp)
    show Nat.max a ((b :: t).foldr Nat.max 0) ∈ a :: b :: t
    rcases le_total ((b :: t).foldr Nat.max 0) a with h | h
    · have hmax : a.max ((b :: t).foldr Nat.max 0) = a := max_eq_left h
      rw [hmax]
      exact List.mem_cons_self _ _
    · have hmax : a.max ((b :: t).foldr Nat.max 0) =
          (b :: t).foldr Nat.max 0 := max_eq_right h
      rw [hmax]
      exact List.mem_cons_of_mem _ ih

theorem le_foldr_max : ∀ (l : List ℕ), ∀ x ∈ l, x ≤ l.foldr Nat.max 0 := by
  intro l
  induction l with
  | nil => intro x hx; simp at hx
  | cons a t ih =>
    intro x hx
    rcases List.mem_cons.mp hx with h | h
    · subst h
      exact Nat.le_max_left _ _
    · exact le_trans (ih x h) (Nat.le_max_right _ _)

theorem insertionSort_geN_eq_max_cons (l : List ℕ) (hne : l ≠ []) :
    List.insertionSort geN l =
      (l.foldr Nat.max 0) :: List.insertionSort geN (l.erase (l.foldr Nat.max 0)) := by
  set M := l.foldr Nat.max 0 with hM
  have hMmem : M ∈ l := foldr_max_mem l hne
  have hperm1 : (List.insertionSort geN l).Perm l := List.perm_insertionSort _ _
  have hperm2 : (M :: List.insertionSort geN (l.erase M)).Perm l := by
    refine List.Perm.trans ?_ (List.perm_cons_erase hMmem).symm
    exact List.Perm.cons M (List.perm_insertionSort _ _)
  have hsorted1 : List.Sorted geN (List.insertionSort geN l) :=
    List.sorted_insertionSort _ _
  have hsorted2 : List.Sorted geN (M :: List.insertionSort geN (l.erase M)) := by
    refine List.sorted_cons.mpr ⟨fun b hb => ?_, List.sorted_insertionSort _ _⟩
    have hbmem : b ∈ l.erase M := (List.mem_insertionSort geN).mp hb
    have : b ∈ l := List.mem_of_mem_erase hbmem
    exact le_foldr_max l b this
  exact List.eq_of_perm_of_sorted (hperm1.trans hperm2.symm) hsorted1 hsorted2

theorem getD_zero_eq_headD (l : List ℕ) : l.getD 0 0 = l.headD 0 := by
  cases l <;> rfl

theorem insertionSort_geN_headD (l : List ℕ) :
    (List.insertionSort geN l).headD 0 = l.foldr Nat.max 0 := by
  rcases eq_or_ne l ([] : List ℕ) with h | h
  · subst h
    rfl
  · rw [insertionSort_geN_eq_max_cons l h]
    rfl

theorem insertionSort_geN_getD1 (l : List ℕ) (hne : l ≠ []) :
    (List.insertionSort geN l).getD 1 0 =
      (l.erase (l.foldr Nat.max 0)).foldr Nat.max 0 := by
  rw [insertionSort_geN_eq_max_cons l hne]
  rw [List.getD_cons_succ, getD_zero_eq_headD]
  exact insertionSort_geN_headD _

/-- C1: for every group of 5 fill scores the embedded decision rule
agrees with the rule exactly as the claim words it (ratio > 1.15
with max/second, max > 1.1 x mean, max > 50, answer = letter at the
max-score index, otherwise unmarked), and on the two quoted
examples it yields C and the unmarked sentinel respectively. -/
theorem extract_answer_decision_rule :
    (∀ scores : List ℕ, scores.length = 5 →
      decide_answer scores = spec_decision scores) ∧
    decide_answer [20, 20, 200, 25, 20] = "C" ∧
    decide_answer [100, 98, 95, 97, 99] = "NÃO MARCADA" := by
  have hgen : ∀ scores : List ℕ, scores.length = 5 →
      decide_answer scores = spec_decision scores := by
    intro scores h5
    have hne : scores ≠ [] := by
      intro hc
      rw [hc] at h5
      simp at h5
    have hsortlen : (List.insertionSort geN scores).length = 5 := by
      rw [List.length_insertionSort, h5]
    have hmax := insertionSort_geN_headD scores
    have hsecond := insertionSort_geN_getD1 scores hne
    set M := scores.foldr Nat.max 0 with hM
    set S := (scores.erase M).foldr Nat.max 0 with hS
    simp only [decide_answer, spec_decision]
    rw [hmax, hsortlen, if_pos (by norm_num : (1 : ℕ) < 5), hsecond, h5]
    refine if_congr ?_ rfl rfl
    have hiff1 : (S = 0 ∨ (M : ℚ) / (S : ℚ) > 23 / 20) ↔
        (S = 0 ∨ 20 * M > 23 * S) := by
      rcases eq_or_ne S 0 with h0 | h0
      · simp [h0]
      · have hSpos : (0 : ℚ) < (S : ℚ) := by
          have : 0 < S := Nat.pos_of_ne_zero h0
          exact_mod_cast this
        constructor
        · rintro (hc | hc)
          · exact Or.inl hc
          · right
            rw [gt_iff_lt, div_lt_div_iff₀ (by norm_num) hSpos] at hc
            have : (23 : ℚ) * S < 20 * M := by linarith
            exact_mod_cast this
        · rintro (hc | hc)
          · exact Or.inl hc
          · right
            rw [gt_iff_lt, div_lt_div_iff₀ (by norm_num) hSpos]
            have : (23 : ℚ) * (S : ℚ) < 20 * (M : ℚ) := by exact_mod_cast hc
            linarith
    have hiff2 : ((M : ℚ) > ((scores.sum : ℚ) / ((5 : ℕ) : ℚ)) * (11 / 10)) ↔
        (10 * 5 * M > 11 * scores.sum) := by
      have hrw : ((scores.sum : ℚ) / ((5 : ℕ) : ℚ)) * (11 / 10) =
          (11 * (scores.sum : ℚ)) / 50 := by
        push_cast
        ring
      rw [hrw, gt_iff_lt, div_lt_iff₀ (by norm_num : (0 : ℚ) < 50)]
      constructor
      · intro hc
        have : (11 : ℚ) * scores.sum < 50 * M := by linarith
        have hn : 11 * scores.sum < 50 * M := by exact_mod_cast this
        omega
      · intro hc
        have hn : (11 : ℚ) * scores.sum < 50 * M := by
          have : 11 * scores.sum < 50 * M := by omega
          exact_mod_cast this
        linarith
    rw [hiff1, hiff2]
  refine ⟨hgen, ?_, ?_⟩
  · rw [hgen [20, 20, 200, 25, 20] (by norm_num)]
    decide
  · rw [hgen [100, 98, 95, 97, 99] (by norm_num)]
    decide

/-- Witness for extract_answer_decision_rule's universally
quantified part at the quoted 5-score example. -/
theorem extract_answer_decision_rule_witness :
    ([20, 20, 200, 25, 20] : List ℕ).length = 5 ∧
    decide_answer [20, 20, 200, 25, 20] =
      spec_decision [20, 20, 200, 25, 20] :=
  ⟨by norm_num,
    extract_answer_decision_rule.1 [20, 20, 200, 25, 20] (by norm_num)⟩

theorem chunk5_length : ∀ l : List Box, (chunk5 l).length = (l.length + 4) / 5
  | [] => by simp [chunk5]
  | [a] => by simp [chunk5]
  | [a, b] => by simp [chunk5]
  | [a, b, c] => by simp [chunk5]
  | [a, b, c, d] => by simp [chunk5]
  | a :: b :: c :: d :: e :: rest => by
    have ih := chunk5_length rest
    simp only [chunk5, List.length_cons, ih]
    omega

theorem extract_answers_keys (bubbles : List Box) (score : Box → ℕ) :
    (extract_answers bubbles score).map Prod.fst =
      (List.range ((bubbles.length + 4) / 5)).map (fun q => q + 1) := by
  rw [extract_answers, List.mapIdx_eq_enum_map, List.map_map]
  have hfun : (Prod.fst ∘ Function.uncurry fun q group =>
      (q + 1, decide_answer ((sort_left_to_right group).map score))) =
      (fun q : ℕ => q + 1) ∘ Prod.fst := by
    funext p
    rfl
  rw [hfun, ← List.map_map, List.enum_map_fst, chunk5_length]

/-- C10: for every non-empty ordered candidate list whose length is
not a multiple of 5, answer extraction still processes the final
short group and emits a record for it: the returned map has exactly
ceil(n/5) = n/5 + 1 records, keyed consecutively from 1. The
embedding is total — the code path raises nothing (in particular no
AnswerExtractionError, which is never constructed anywhere), and a
single-bubble group scores second = 0, passing the ratio test
vacuously. -/
theorem extract_answers_short_group (bubbles : List Box) (score : Box → ℕ)
    (hne : bubbles ≠ []) (hmod : bubbles.length % 5 ≠ 0) :
    (extract_answers bubbles score).length = bubbles.length / 5 + 1 ∧
    (extract_answers bubbles score).map Prod.fst =
      (List.range (bubbles.length / 5 + 1)).map (fun q => q + 1) := by
  have hceil : (bubbles.length + 4) / 5 = bubbles.length / 5 + 1 := by omega
  constructor
  · rw [extract_answers, List.length_mapIdx, chunk5_length, hceil]
  · rw [extract_answers_keys, hceil]

/-- Witness for extract_answers_short_group at a single-bubble
list (a short final group of one). -/
theorem extract_answers_short_group_witness :
    (([⟨0, 0, 1, 1⟩] : List Box) ≠ [] ∧
      ([⟨0, 0, 1, 1⟩] : List Box).length % 5 ≠ 0) ∧
    ((extract_answers [⟨0, 0, 1, 1⟩] (fun _ => 0)).length =
        ([⟨0, 0, 1, 1⟩] : List Box).length / 5 + 1 ∧
      (extract_answers [⟨0, 0, 1, 1⟩] (fun _ => 0)).map Prod.fst =
        (List.range (([⟨0, 0, 1, 1⟩] : List Box).length / 5 + 1)).map
          (fun q => q + 1)) :=
  ⟨⟨by simp, by simp⟩,
    extract_answers_short_group [⟨0, 0, 1, 1⟩] (fun _ => 0) (by simp) (by simp)⟩

/-- C9: the top-level entry point returns a result value for every
input and hint — it never propagates an exception — and the result
is exactly one of: success with the answers map and
total_questions equal to the number of answer records, or failure
with an error message and no partial answers. -/
theorem process_gabarito_image_total (input : PipelineInput)
    (numQuestions : Option ℕ) :
    (∃ answers : List (ℕ × String),
      process_gabarito_image input numQuestions =
        ProcResult.ok answers answers.length) ∨
    (∃ msg : String,
      process_gabarito_image input numQuestions = ProcResult.fail msg) := by
  rw [process_gabarito_image]
  split
  · next answers _ => exact Or.inl ⟨answers, rfl⟩
  · next e _ => exact Or.inr ⟨e.message, rfl⟩
